import Mathlib

/-!
Verification of the `dr_kdl` kinematics façade.

The repository ships `include/dr_kdl/dr_kdl.hpp`: three free `getTransform`
overloads over a kinematic chain (no oracle / name-to-value mapping /
parallel name and value sequences) and a `KdlTree` wrapper whose `transform`
methods are defined inline as `getTransform(getChain(source, target), ...)`.
The bodies of the free functions and of `getChain` live in the out-of-tree
translation unit, so they are modelled here from the specification
(§3, §4.2–§4.4, §6, §7 of `spec.md`); the inline `KdlTree::transform`
methods are translated directly from the header.

Scalars are modelled by `ℚ` (exact stand-in for `double`).  A revolute
joint value parametrises the rotation angle through its half-angle tangent,
`cos = (1 - q^2)/(1 + q^2)`, `sin = 2q/(1 + q^2)`, which keeps the Rodrigues
rotation matrix inside the computable rational field.
-/

/-- 3-vectors over the scalar field. -/
abbrev Vec3 := Fin 3 → ℚ

/-- 3×3 matrices over the scalar field. -/
abbrev Mat3 := Matrix (Fin 3) (Fin 3) ℚ

/-- Squared Euclidean norm of a 3-vector. -/
def sqNorm (a : Vec3) : ℚ := a 0 ^ 2 + a 1 ^ 2 + a 2 ^ 2

/-- The cross-product (hat) matrix of a 3-vector. -/
def crossMat (a : Vec3) : Mat3 :=
  !![0, -a 2, a 1; a 2, 0, -a 0; -a 1, a 0, 0]

/-- The outer product `a·aᵀ` of a 3-vector with itself. -/
def outerSq (a : Vec3) : Mat3 := Matrix.vecMulVec a a

/-- Rodrigues rotation matrix about axis `a` with cosine `c` and sine `s`. -/
def rodrigues (a : Vec3) (c s : ℚ) : Mat3 :=
  c • (1 : Mat3) + s • crossMat a + (1 - c) • outerSq a

theorem crossMat_transpose (a : Vec3) : (crossMat a).transpose = -(crossMat a) := by
  ext i j
  fin_cases i <;> fin_cases j <;>
    simp [crossMat, Matrix.transpose_apply]

theorem outerSq_transpose (a : Vec3) : (outerSq a).transpose = outerSq a := by
  ext i j
  fin_cases i <;> fin_cases j <;>
    simp [outerSq, Matrix.vecMulVec_apply, mul_comm]

theorem crossMat_mul_outerSq (a : Vec3) : crossMat a * outerSq a = 0 := by
  ext i j
  fin_cases i <;> fin_cases j <;>
    simp [crossMat, outerSq, Matrix.mul_apply, Matrix.vecMulVec_apply,
      Fin.sum_univ_three] <;> ring

theorem outerSq_mul_crossMat (a : Vec3) : outerSq a * crossMat a = 0 := by
  ext i j
  fin_cases i <;> fin_cases j <;>
    simp [crossMat, outerSq, Matrix.mul_apply, Matrix.vecMulVec_apply,
      Fin.sum_univ_three] <;> ring

theorem outerSq_mul_outerSq' (a : Vec3) :
    outerSq a * outerSq a = sqNorm a • outerSq a := by
  ext i j
  simp [outerSq, sqNorm, Matrix.mul_apply, Matrix.vecMulVec_apply,
    Fin.sum_univ_three, Matrix.smul_apply, smul_eq_mul]
  ring

theorem outerSq_mul_outerSq (a : Vec3) (hu : sqNorm a = 1) :
    outerSq a * outerSq a = outerSq a := by
  rw [outerSq_mul_outerSq', hu, one_smul]

theorem crossMat_mul_crossMat (a : Vec3) (hu : sqNorm a = 1) :
    crossMat a * crossMat a = outerSq a - 1 := by
  have h : a 0 ^ 2 + a 1 ^ 2 + a 2 ^ 2 = 1 := hu
  ext i j
  fin_cases i <;> fin_cases j <;>
    · simp [crossMat, outerSq, Matrix.mul_apply, Matrix.vecMulVec_apply,
        Fin.sum_univ_three, Matrix.one_apply]
      first
      | linear_combination -h
      | ring

theorem rodrigues_transpose (a : Vec3) (c s : ℚ) :
    (rodrigues a c s).transpose = rodrigues a c (-s) := by
  simp [rodrigues, Matrix.transpose_add, Matrix.transpose_smul,
    crossMat_transpose, outerSq_transpose, Matrix.transpose_one, smul_neg, neg_smul]

theorem rodrigues_mul_transpose (a : Vec3) (c s : ℚ)
    (hu : sqNorm a = 1) (hc : c ^ 2 + s ^ 2 = 1) :
    rodrigues a c s * (rodrigues a c s).transpose = 1 := by
  rw [rodrigues_transpose]
  unfold rodrigues
  simp only [add_mul, mul_add, Matrix.smul_mul, Matrix.mul_smul, smul_smul,
    crossMat_mul_crossMat a hu, outerSq_mul_outerSq a hu,
    crossMat_mul_outerSq, outerSq_mul_crossMat,
    Matrix.mul_one, Matrix.one_mul, smul_zero, smul_sub]
  match_scalars <;>
    (first
      | ring1
      | linear_combination hc
      | linear_combination -hc)

/-- A rigid transform: rotation matrix plus translation, acting on points as
`p ↦ R p + t`.  The invariant carried is the spec §3 invariant that `R`
stays orthonormal under composition. -/
structure Isometry3d where
  R : Mat3
  t : Vec3
  orth : R * R.transpose = 1

theorem Isometry3d.eq_of_fields {a b : Isometry3d}
    (hR : a.R = b.R) (ht : a.t = b.t) : a = b := by
  cases a; cases b; cases hR; cases ht; rfl

/-- Spec §4.1 `identity()`. -/
def Isometry3d.identity : Isometry3d := ⟨1, 0, by simp⟩

/-- Spec §4.1 `compose(a, b)`: `(a ∘ b)(p) = a(b(p))`. -/
def Isometry3d.compose (a b : Isometry3d) : Isometry3d :=
  ⟨a.R * b.R, a.R.mulVec b.t + a.t, by
    rw [Matrix.transpose_mul, Matrix.mul_assoc, ← Matrix.mul_assoc b.R,
      b.orth, Matrix.one_mul, a.orth]⟩

/-- Spec §4.1 `inverse(a)`: `R⁻¹ = Rᵀ`, `t⁻¹ = -Rᵀ t`. -/
def Isometry3d.inverse (a : Isometry3d) : Isometry3d :=
  ⟨a.R.transpose, -(a.R.transpose.mulVec a.t), by
    rw [Matrix.transpose_transpose]; exact Matrix.mul_eq_one_comm.mp a.orth⟩

/-- Spec §4.1 `from_rigid(R, t)` (the rotation must be orthonormal). -/
def Isometry3d.from_rigid (R : Mat3) (t : Vec3) (h : R * R.transpose = 1) :
    Isometry3d := ⟨R, t, h⟩

/-- Spec §4.1 `from_translation(axis, distance)`. -/
def Isometry3d.from_translation (axis : Vec3) (distance : ℚ) : Isometry3d :=
  ⟨1, distance • axis, by simp⟩

/-- Spec §4.1 `from_axis_angle(axis, angle)`: rotation about the unit `axis`,
the angle given through its half-angle tangent `q`
(`cos = (1 - q^2)/(1 + q^2)`, `sin = 2q/(1 + q^2)`). -/
def Isometry3d.from_axis_angle (axis : Vec3) (hu : sqNorm axis = 1) (q : ℚ) :
    Isometry3d :=
  ⟨rodrigues axis ((1 - q ^ 2) / (1 + q ^ 2)) (2 * q / (1 + q ^ 2)), 0, by
    refine rodrigues_mul_transpose _ _ _ hu ?_
    have hq : (1 + q ^ 2 : ℚ) ≠ 0 := by positivity
    field_simp
    ring⟩

theorem Isometry3d.compose_assoc (a b c : Isometry3d) :
    (a.compose b).compose c = a.compose (b.compose c) := by
  refine Isometry3d.eq_of_fields (Matrix.mul_assoc _ _ _) ?_
  simp [Isometry3d.compose, Matrix.mulVec_add, ← Matrix.mulVec_mulVec, add_assoc]

theorem Isometry3d.identity_compose (a : Isometry3d) :
    Isometry3d.identity.compose a = a := by
  refine Isometry3d.eq_of_fields ?_ ?_ <;>
    simp [Isometry3d.compose, Isometry3d.identity]

theorem Isometry3d.compose_identity (a : Isometry3d) :
    a.compose Isometry3d.identity = a := by
  refine Isometry3d.eq_of_fields ?_ ?_ <;>
    simp [Isometry3d.compose, Isometry3d.identity]

theorem Isometry3d.inverse_compose_self (a : Isometry3d) :
    a.inverse.compose a = Isometry3d.identity := by
  refine Isometry3d.eq_of_fields ?_ ?_ <;>
    simp [Isometry3d.compose, Isometry3d.inverse, Isometry3d.identity,
      Matrix.mul_eq_one_comm.mp a.orth]

instance : Group Isometry3d where
  mul := Isometry3d.compose
  one := Isometry3d.identity
  inv := Isometry3d.inverse
  mul_assoc := Isometry3d.compose_assoc
  one_mul := Isometry3d.identity_compose
  mul_one := Isometry3d.compose_identity
  inv_mul_cancel := Isometry3d.inverse_compose_self

theorem Isometry3d.compose_eq_mul (a b : Isometry3d) : a.compose b = a * b := rfl

theorem Isometry3d.inverse_eq_inv (a : Isometry3d) : a.inverse = a⁻¹ := rfl

theorem Isometry3d.identity_eq_one : Isometry3d.identity = 1 := rfl

/-- A unit axis of motion (spec §3: `axis: unit ℝ³`). -/
structure UnitAxis where
  v : Vec3
  unit : sqNorm v = 1

/-- Modelled from the spec (§3): the joint variant
`{Fixed | Revolute{axis} | Prismatic{axis}}`. -/
inductive JointKind
  | fixed
  | revolute (axis : UnitAxis)
  | prismatic (axis : UnitAxis)

/-- Modelled from the spec (§3): a joint is a variant carrying a unique
string `name`. -/
structure Joint where
  name : String
  kind : JointKind

/-- Spec §4.2 predicate `is_fixed(joint)`. -/
def Joint.is_fixed (j : Joint) : Bool :=
  match j.kind with
  | .fixed => true
  | .revolute _ => false
  | .prismatic _ => false

/-- Modelled from the spec (§4.2): `motion_at(joint, q)`.  `Fixed` ignores
`q`; `Revolute` rotates about the axis; `Prismatic` translates along it. -/
def Joint.motion_at (j : Joint) (q : ℚ) : Isometry3d :=
  match j.kind with
  | .fixed => Isometry3d.identity
  | .revolute a => Isometry3d.from_axis_angle a.v a.unit q
  | .prismatic a => Isometry3d.from_translation a.v q

/-- Spec §3: a named rigid body bearing one joint and a constant tip offset. -/
structure Segment where
  name : String
  joint : Joint
  frame_to_tip : Isometry3d

/-- Spec §3 `ChainElement`: a segment plus its traversal direction. -/
structure ChainElement where
  segment : Segment
  forward : Bool

/-- Spec §3 `Chain`: ordered sequence of chain elements. -/
abbrev Chain := List ChainElement

/-- The error taxonomy of spec §7 (the core kinds). -/
inductive KdlError
  | unknownSegment (name : String)
  | missingJointValue (joint_name : String)
  | malformedJointInput
deriving DecidableEq

/-- Spec §4.4: a joint-value oracle `lookup(name) → double | missing`. -/
abbrev Oracle := String → Option ℚ

/-- Spec §6 `empty_oracle()`: returns `missing` for every lookup. -/
def emptyOracle : Oracle := fun _ => none

/-- Spec §6 `oracle_from_mapping(map)`: the mapped value or `missing`. -/
def oracle_from_mapping (m : List (String × ℚ)) : Oracle := fun n => m.lookup n

/-- Modelled from the spec (§4.4, oracle shape 3): the value at the first
index where `names[i] == name`, else `missing`. -/
def parallelLookup : List String → List ℚ → Oracle
  | n :: ns, v :: vs, name => if n = name then some v else parallelLookup ns vs name
  | _, _, _ => none

/-- Modelled from the spec (§4.4 failure semantics): non-fixed joints look
their value up in the oracle and fail with `MissingJointValue` when it is
missing; fixed joints never consult the oracle (their value is ignored). -/
def jointValue (q : Oracle) (j : Joint) : Except KdlError ℚ :=
  if j.is_fixed then .ok 0
  else
    match q j.name with
    | some v => .ok v
    | none => .error (.missingJointValue j.name)

/-- Modelled from the spec (§4.4): the forward per-segment transform
`F(s, q) = frame_to_tip(s) ∘ motion_at(joint(s), q(name(joint(s))))`. -/
def segmentTransform (q : Oracle) (s : Segment) : Except KdlError Isometry3d :=
  (jointValue q s.joint).map fun v => s.frame_to_tip.compose (s.joint.motion_at v)

/-- Modelled from the spec (§4.4): the element contributes `F(s, q)` if
`forward`, else `inverse(F(s, q))`. -/
def contribution (q : Oracle) (e : ChainElement) : Except KdlError Isometry3d :=
  (segmentTransform q e.segment).map fun T => if e.forward then T else T.inverse

/-- Modelled from the spec (§4.4): left-to-right accumulation over the chain,
stopping at the first failing element. -/
def evalChainFrom (q : Oracle) : Isometry3d → Chain → Except KdlError Isometry3d
  | acc, [] => .ok acc
  | acc, e :: rest =>
    match contribution q e with
    | .error err => .error err
    | .ok c => evalChainFrom q (acc.compose c) rest

/-- Modelled from the spec (§4.4): the forward evaluator over a chain and a
joint-value oracle. -/
def evalChain (chain : Chain) (q : Oracle) : Except KdlError Isometry3d :=
  evalChainFrom q Isometry3d.identity chain

/-- Modelled from the spec (§6): `transform_of_chain(chain)`, the fixed-only
variant declared as `getTransform(chain)` in `dr_kdl.hpp`. -/
def getTransform (chain : Chain) : Except KdlError Isometry3d :=
  evalChain chain emptyOracle

/-- Modelled from the spec (§6): `transform_of_chain(chain, mapping)`,
declared as `getTransform(chain, joints)` in `dr_kdl.hpp`. -/
def getTransformMap (chain : Chain) (joints : List (String × ℚ)) :
    Except KdlError Isometry3d :=
  evalChain chain (oracle_from_mapping joints)

/-- Modelled from the spec (§6): `transform_of_chain(chain, names, values)`,
declared as `getTransform(chain, joint_names, joint_positions)` in
`dr_kdl.hpp`; fails with `MalformedJointInput` when the lengths differ. -/
def getTransformVectors (chain : Chain)
    (joint_names : List String) (joint_positions : List ℚ) :
    Except KdlError Isometry3d :=
  if joint_names.length = joint_positions.length then
    evalChain chain (parallelLookup joint_names joint_positions)
  else
    .error .malformedJointInput

/-- Left-to-right composition of a list of transforms
(`c₁ ∘ (c₂ ∘ (… ∘ I))`). -/
def listCompose (l : List Isometry3d) : Isometry3d :=
  l.foldr Isometry3d.compose Isometry3d.identity

theorem evalChainFrom_of_forall₂ (q : Oracle) (acc : Isometry3d)
    {l : Chain} {cs : List Isometry3d}
    (h : List.Forall₂ (fun e c => contribution q e = .ok c) l cs) :
    evalChainFrom q acc l = .ok (acc.compose (listCompose cs)) := by
  induction h generalizing acc with
  | nil => simp [evalChainFrom, listCompose, Isometry3d.compose_identity]
  | cons hec _ ih =>
    rename_i e c l' cs'
    simp only [evalChainFrom, hec, listCompose, List.foldr_cons, ih,
      Isometry3d.compose_assoc]

theorem evalChainFrom_ok_inv (q : Oracle) {acc : Isometry3d} {l : Chain}
    {X : Isometry3d} (h : evalChainFrom q acc l = .ok X) :
    ∃ cs, List.Forall₂ (fun e c => contribution q e = .ok c) l cs ∧
      X = acc.compose (listCompose cs) := by
  induction l generalizing acc with
  | nil =>
    refine ⟨[], List.Forall₂.nil, ?_⟩
    simp [evalChainFrom] at h
    simp [listCompose, Isometry3d.compose_identity, h]
  | cons e rest ih =>
    simp only [evalChainFrom] at h
    cases hc : contribution q e with
    | error err => rw [hc] at h; cases h
    | ok c =>
      rw [hc] at h
      obtain ⟨cs, hcs, hX⟩ := ih h
      exact ⟨c :: cs, List.Forall₂.cons hc hcs, by
        simp [listCompose, hX, Isometry3d.compose_assoc]⟩

/-- One arena slot: a segment plus its parent index (`none` for the root).
Spec §9 endorses the arena-plus-index tree representation. -/
structure TreeNode where
  segment : Segment
  parent : Option Nat

/-- Fallback segment for out-of-range indices (never reached on well-formed
trees). -/
def defaultSegment : Segment :=
  ⟨"", ⟨"", JointKind.fixed⟩, Isometry3d.identity⟩

/-- Modelled from the spec (§3 tree invariants): exactly one root (stored at
index 0), every other node's parent strictly precedes it (hence no cycles and
a connected rooted tree), and segment names are unique. -/
def treeWf (nodes : List TreeNode) : Bool :=
  !nodes.isEmpty &&
  (nodes.enum.all fun p =>
    match p.2.parent with
    | none => p.1 == 0
    | some j => decide (j < p.1)) &&
  decide (nodes.map (fun n => n.segment.name)).Nodup

/-- Modelled from the spec (§3): the kinematic tree.  The C++ class derives
from the host library's tree type; here it is a standalone arena value. -/
structure KdlTree where
  nodes : List TreeNode
  wf : treeWf nodes = true

/-- Index of the first node carrying a segment of the given name. -/
def findSegIdx : List TreeNode → String → Option Nat
  | [], _ => none
  | n :: rest, name =>
    if n.segment.name = name then some 0 else (findSegIdx rest name).map (· + 1)

/-- Spec §4.3 `has(name)`. -/
def KdlTree.has (t : KdlTree) (name : String) : Bool :=
  (findSegIdx t.nodes name).isSome

/-- The segment stored at an index. -/
def KdlTree.segAt (t : KdlTree) (i : Nat) : Segment :=
  match t.nodes[i]? with
  | some n => n.segment
  | none => defaultSegment

/-- Walk from a node up to the root, structurally on a fuel argument; parent
indices strictly decrease on well-formed trees, so `i + 1` fuel reaches the
root.  Returns the node-index path `[i, parent(i), …, 0]`. -/
def pathToRootFuel (nodes : List TreeNode) : Nat → Nat → List Nat
  | 0, i => [i]
  | fuel + 1, i =>
    i ::
      (match nodes[i]? with
       | some n =>
         match n.parent with
         | some j => pathToRootFuel nodes fuel j
         | none => []
       | none => [])

/-- Path of node indices from a node up to the root (spec §4.3 `A`, `B`). -/
def KdlTree.pathToRoot (t : KdlTree) (i : Nat) : List Nat :=
  pathToRootFuel t.nodes (i + 1) i

/-- Drop the longest common prefix of two lists (spec §4.3: the two root-first
paths share the prefix down to the fork `F`). -/
def dropCommon : List Nat → List Nat → List Nat × List Nat
  | x :: xs, y :: ys =>
    if x = y then dropCommon xs ys else (x :: xs, y :: ys)
  | xs, ys => (xs, ys)

/-- Modelled from the spec (§4.3 chain-extraction algorithm): reversed
elements from the source up to (excluding) the fork, then forward elements
from below the fork down to the target. -/
def chainOfIdx (t : KdlTree) (ia ib : Nat) : Chain :=
  let ra := (t.pathToRoot ia).reverse
  let rb := (t.pathToRoot ib).reverse
  let d := dropCommon ra rb
  d.1.reverse.map (fun i => ⟨t.segAt i, false⟩) ++
    d.2.map (fun i => ⟨t.segAt i, true⟩)

/-- Modelled from the spec (§4.3): `get_chain(source, target)`, declared as
`KdlTree::getChain(start, end)` in `dr_kdl.hpp`; fails with `UnknownSegment`
when either name is absent. -/
def KdlTree.getChain (t : KdlTree) (start stop : String) :
    Except KdlError Chain :=
  match findSegIdx t.nodes start with
  | none => .error (.unknownSegment start)
  | some ia =>
    match findSegIdx t.nodes stop with
    | none => .error (.unknownSegment stop)
    | some ib => .ok (chainOfIdx t ia ib)

/-- From `dr_kdl.hpp` (fixed-only overload):
`return getTransform(getChain(source, target));`. -/
def KdlTree.transform (t : KdlTree) (source target : String) :
    Except KdlError Isometry3d :=
  (t.getChain source target).bind fun c => getTransform c

/-- From `dr_kdl.hpp` (map overload):
`return getTransform(getChain(source, target), joints);`. -/
def KdlTree.transformMap (t : KdlTree) (source target : String)
    (joints : List (String × ℚ)) : Except KdlError Isometry3d :=
  (t.getChain source target).bind fun c => getTransformMap c joints

/-- From `dr_kdl.hpp` (parallel-vectors overload):
`return getTransform(getChain(source, target), joint_names, joint_positions);`. -/
def KdlTree.transformVectors (t : KdlTree) (source target : String)
    (joint_names : List String) (joint_positions : List ℚ) :
    Except KdlError Isometry3d :=
  (t.getChain source target).bind fun c =>
    getTransformVectors c joint_names joint_positions

/-- The two parallel sequences carried by a `sensor_msgs::JointState`
message (the fields the header reads). -/
structure JointState where
  name : List String
  position : List ℚ

/-- From `dr_kdl.hpp` (JointState overload):
`return getTransform(getChain(source, target), joints.name, joints.position);`. -/
def KdlTree.transformJointState (t : KdlTree) (source target : String)
    (joints : JointState) : Except KdlError Isometry3d :=
  (t.getChain source target).bind fun c =>
    getTransformVectors c joints.name joints.position

/-- Evaluation of an extracted chain under an arbitrary joint-value oracle
(spec §2 data flow: chain plus oracle feed the evaluator). -/
def KdlTree.transformOracle (t : KdlTree) (source target : String)
    (q : Oracle) : Except KdlError Isometry3d :=
  (t.getChain source target).bind fun c => evalChain c q

/-- Total per-node forward transform under an oracle: the value of
`segmentTransform` where it succeeds, identity otherwise. -/
def nodeF (t : KdlTree) (q : Oracle) (i : Nat) : Isometry3d :=
  match segmentTransform q (t.segAt i) with
  | .ok T => T
  | .error _ => Isometry3d.identity

/-- Product of the per-node forward transforms along the root-first path of a
node (a potential function on tree nodes). -/
def potential (t : KdlTree) (q : Oracle) (i : Nat) : Isometry3d :=
  listCompose (((t.pathToRoot i).reverse).map (nodeF t q))

theorem dropCommon_self : ∀ l : List Nat, dropCommon l l = ([], []) := by
  intro l
  induction l with
  | nil => rfl
  | cons x xs ih => simp [dropCommon, ih]

theorem dropCommon_prefix :
    ∀ xs ys : List Nat, ∃ pre,
      xs = pre ++ (dropCommon xs ys).1 ∧ ys = pre ++ (dropCommon xs ys).2 := by
  intro xs
  induction xs with
  | nil => intro ys; exact ⟨[], by simp [dropCommon], by simp [dropCommon]⟩
  | cons x xs ih =>
    intro ys
    cases ys with
    | nil => exact ⟨[], by simp [dropCommon], by simp [dropCommon]⟩
    | cons y ys =>
      by_cases hxy : x = y
      · subst hxy
        obtain ⟨pre, h1, h2⟩ := ih ys
        refine ⟨x :: pre, ?_, ?_⟩ <;> simp [dropCommon, ← h1, ← h2]
      · exact ⟨[], by simp [dropCommon, hxy], by simp [dropCommon, hxy]⟩

theorem listCompose_append (l1 l2 : List Isometry3d) :
    listCompose (l1 ++ l2) = (listCompose l1).compose (listCompose l2) := by
  induction l1 with
  | nil => simp [listCompose, Isometry3d.identity_compose]
  | cons a l ih =>
    simp [listCompose, List.foldr_cons] at ih ⊢
    rw [ih, Isometry3d.compose_assoc]

theorem listCompose_reverse_inv (l : List Isometry3d) :
    listCompose ((l.map Isometry3d.inverse).reverse) = (listCompose l).inverse := by
  induction l with
  | nil =>
    simp [listCompose, Isometry3d.inverse_eq_inv, Isometry3d.identity_eq_one]
  | cons a l ih =>
    have : ((a :: l).map Isometry3d.inverse).reverse =
        (l.map Isometry3d.inverse).reverse ++ [a.inverse] := by simp
    rw [this, listCompose_append, ih]
    simp only [listCompose, List.foldr_cons, List.foldr_nil,
      Isometry3d.compose_eq_mul, Isometry3d.inverse_eq_inv,
      Isometry3d.identity_eq_one]
    simp [mul_inv_rev]

theorem forall₂_append_split {α β : Type} {R : α → β → Prop} :
    ∀ {l1 l2 : List α} {cs : List β}, List.Forall₂ R (l1 ++ l2) cs →
      ∃ cs1 cs2, cs = cs1 ++ cs2 ∧ List.Forall₂ R l1 cs1 ∧ List.Forall₂ R l2 cs2 := by
  intro l1
  induction l1 with
  | nil => intro l2 cs h; exact ⟨[], cs, rfl, List.Forall₂.nil, h⟩
  | cons a l1 ih =>
    intro l2 cs h
    cases h with
    | cons hr ht =>
      rename_i c cs'
      obtain ⟨cs1, cs2, rfl, h1, h2⟩ := ih ht
      exact ⟨c :: cs1, cs2, rfl, List.Forall₂.cons hr h1, h2⟩

theorem contribution_ok_elim {q : Oracle} {s : Segment} {fwd : Bool}
    {c : Isometry3d} (h : contribution q ⟨s, fwd⟩ = .ok c) :
    ∃ F, segmentTransform q s = .ok F ∧ c = if fwd then F else F.inverse := by
  unfold contribution at h
  cases hs : segmentTransform q s with
  | error e => rw [hs] at h; cases h
  | ok F =>
    rw [hs] at h
    cases h
    exact ⟨F, rfl, rfl⟩

theorem nodeF_eq_of_ok {t : KdlTree} {q : Oracle} {i : Nat} {F : Isometry3d}
    (h : segmentTransform q (t.segAt i) = .ok F) : nodeF t q i = F := by
  simp [nodeF, h]

theorem forall₂_fwd_values (t : KdlTree) (q : Oracle) :
    ∀ {l : List Nat} {cs : List Isometry3d},
      List.Forall₂ (fun e c => contribution q e = .ok c)
        (l.map fun i => ⟨t.segAt i, true⟩) cs →
      cs = l.map (nodeF t q) := by
  intro l
  induction l with
  | nil => intro cs h; cases h; rfl
  | cons i l ih =>
    intro cs h
    rw [List.map_cons] at h
    cases h with
    | cons hr ht =>
      rename_i c cs'
      obtain ⟨F, hF, hc⟩ := contribution_ok_elim hr
      have hb : c = nodeF t q i := by
        rw [nodeF_eq_of_ok hF]
        simpa using hc
      rw [List.map_cons, hb, ih ht]

theorem forall₂_bwd_values (t : KdlTree) (q : Oracle) :
    ∀ {l : List Nat} {cs : List Isometry3d},
      List.Forall₂ (fun e c => contribution q e = .ok c)
        (l.map fun i => ⟨t.segAt i, false⟩) cs →
      cs = l.map (fun i => (nodeF t q i).inverse) := by
  intro l
  induction l with
  | nil => intro cs h; cases h; rfl
  | cons i l ih =>
    intro cs h
    rw [List.map_cons] at h
    cases h with
    | cons hr ht =>
      rename_i c cs'
      obtain ⟨F, hF, hc⟩ := contribution_ok_elim hr
      have hb : c = (nodeF t q i).inverse := by
        rw [nodeF_eq_of_ok hF]
        simpa using hc
      rw [List.map_cons, hb, ih ht]

theorem evalChain_chainOfIdx {t : KdlTree} {q : Oracle} {ia ib : Nat}
    {X : Isometry3d} (h : evalChain (chainOfIdx t ia ib) q = .ok X) :
    X = (potential t q ia).inverse.compose (potential t q ib) := by
  obtain ⟨cs, hcs, hX⟩ := evalChainFrom_ok_inv _ h
  rw [Isometry3d.identity_compose] at hX
  unfold chainOfIdx at hcs
  set ra := (t.pathToRoot ia).reverse with hra_def
  set rb := (t.pathToRoot ib).reverse with hrb_def
  obtain ⟨pre, hra, hrb⟩ := dropCommon_prefix ra rb
  set d1 := (dropCommon ra rb).1 with hd1
  set d2 := (dropCommon ra rb).2 with hd2
  obtain ⟨cs1, cs2, rfl, h1, h2⟩ := forall₂_append_split hcs
  have hv1 := forall₂_bwd_values t q h1
  have hv2 := forall₂_fwd_values t q h2
  subst hv1 hv2
  rw [listCompose_append] at hX
  have hrev :
      (d1.reverse.map fun i => (nodeF t q i).inverse) =
        ((d1.map (nodeF t q)).map Isometry3d.inverse).reverse := by
    rw [List.map_map, List.map_reverse]
    rfl
  rw [hrev, listCompose_reverse_inv] at hX
  have hpa : potential t q ia =
      (listCompose (pre.map (nodeF t q))).compose
        (listCompose (d1.map (nodeF t q))) := by
    unfold potential
    rw [← hra_def, hra, List.map_append, listCompose_append]
  have hpb : potential t q ib =
      (listCompose (pre.map (nodeF t q))).compose
        (listCompose (d2.map (nodeF t q))) := by
    unfold potential
    rw [← hrb_def, hrb, List.map_append, listCompose_append]
  rw [hX, hpa, hpb]
  simp only [Isometry3d.compose_eq_mul, Isometry3d.inverse_eq_inv]
  group

theorem transformOracle_ok {t : KdlTree} {a b : String} {q : Oracle}
    {X : Isometry3d} (h : t.transformOracle a b q = .ok X) :
    ∃ ia ib, findSegIdx t.nodes a = some ia ∧ findSegIdx t.nodes b = some ib ∧
      X = (potential t q ia).inverse.compose (potential t q ib) := by
  unfold KdlTree.transformOracle KdlTree.getChain at h
  cases hfa : findSegIdx t.nodes a with
  | none => rw [hfa] at h; simp [Except.bind] at h
  | some ia =>
    cases hfb : findSegIdx t.nodes b with
    | none => rw [hfa, hfb] at h; simp [Except.bind] at h
    | some ib =>
      rw [hfa, hfb] at h
      refine ⟨ia, ib, rfl, rfl, evalChain_chainOfIdx ?_⟩
      simpa [Except.bind] using h

/-- C3: for every tree, pair of present segment names and common oracle, the
two opposite transforms are mutual inverses. -/
theorem transform_inverse_symm (t : KdlTree) (a b : String) (q : Oracle)
    (X Y : Isometry3d)
    (hab : t.transformOracle a b q = .ok X)
    (hba : t.transformOracle b a q = .ok Y) :
    X = Y.inverse := by
  obtain ⟨ia, ib, hfa, hfb, hX⟩ := transformOracle_ok hab
  obtain ⟨ib2, ia2, hfb2, hfa2, hY⟩ := transformOracle_ok hba
  obtain rfl : ia = ia2 := Option.some.inj (hfa.symm.trans hfa2)
  obtain rfl : ib = ib2 := Option.some.inj (hfb.symm.trans hfb2)
  rw [hX, hY]
  simp only [Isometry3d.compose_eq_mul, Isometry3d.inverse_eq_inv,
    mul_inv_rev, inv_inv]

/-- C4: the composition law `T(a,c) = T(a,b) ∘ T(b,c)` under a common
oracle. -/
theorem transform_composition_law (t : KdlTree) (a b c : String) (q : Oracle)
    (X Y Z : Isometry3d)
    (hab : t.transformOracle a b q = .ok X)
    (hbc : t.transformOracle b c q = .ok Y)
    (hac : t.transformOracle a c q = .ok Z) :
    Z = X.compose Y := by
  obtain ⟨ia, ib, hfa, hfb, hX⟩ := transformOracle_ok hab
  obtain ⟨ib2, ic, hfb2, hfc, hY⟩ := transformOracle_ok hbc
  obtain ⟨ia2, ic2, hfa2, hfc2, hZ⟩ := transformOracle_ok hac
  obtain rfl : ia = ia2 := Option.some.inj (hfa.symm.trans hfa2)
  obtain rfl : ib = ib2 := Option.some.inj (hfb.symm.trans hfb2)
  obtain rfl : ic = ic2 := Option.some.inj (hfc.symm.trans hfc2)
  rw [hX, hY, hZ]
  simp only [Isometry3d.compose_eq_mul, Isometry3d.inverse_eq_inv]
  group

/-- C5: the chain from a present name to itself is empty and the transform
from a frame to itself is the identity, under any oracle. -/
theorem transform_self_identity (t : KdlTree) (n : String) (q : Oracle)
    (h : t.has n = true) :
    t.getChain n n = .ok ([] : Chain) ∧
      t.transformOracle n n q = .ok Isometry3d.identity := by
  unfold KdlTree.has at h
  obtain ⟨i, hi⟩ := Option.isSome_iff_exists.mp h
  have hchain : chainOfIdx t i i = [] := by
    unfold chainOfIdx
    simp [dropCommon_self]
  refine ⟨?_, ?_⟩
  · simp [KdlTree.getChain, hi, hchain]
  · simp [KdlTree.transformOracle, KdlTree.getChain, hi, hchain, Except.bind,
      evalChain, evalChainFrom]

/-- C6: chain extraction fails (with `UnknownSegment`) exactly when one of
the two names is absent; with both names present it always returns a
chain. -/
theorem getChain_unknownSegment_iff (t : KdlTree) (a b : String) :
    ((∃ n, t.getChain a b = .error (.unknownSegment n)) ↔
      (t.has a = false ∨ t.has b = false)) ∧
    (t.has a = true → t.has b = true → ∃ ch, t.getChain a b = .ok ch) := by
  unfold KdlTree.has KdlTree.getChain
  cases hfa : findSegIdx t.nodes a with
  | none => simp
  | some ia =>
    cases hfb : findSegIdx t.nodes b with
    | none => simp
    | some ib => simp

/-- C1: when every chain element has a defined contribution, the evaluator
returns exactly the left-to-right composition of the per-element
contributions `F(s, q)` (forward) or `inverse(F(s, q))` (reversed). -/
theorem evalChain_eq_composition (chain : Chain) (q : Oracle)
    (cs : List Isometry3d)
    (h : List.Forall₂ (fun e c => ∃ v, jointValue q e.segment.joint = .ok v ∧
        c = if e.forward
          then e.segment.frame_to_tip.compose (e.segment.joint.motion_at v)
          else (e.segment.frame_to_tip.compose (e.segment.joint.motion_at v)).inverse)
      chain cs) :
    evalChain chain q = .ok (listCompose cs) := by
  have h' : List.Forall₂ (fun e c => contribution q e = .ok c) chain cs := by
    refine h.imp ?_
    rintro e c ⟨v, hv, rfl⟩
    simp [contribution, segmentTransform, hv, Except.map]
  have := evalChainFrom_of_forall₂ q Isometry3d.identity h'
  rw [evalChain, this, Isometry3d.identity_compose]

theorem segmentTransform_ok_of_jointValue {q : Oracle} {s : Segment} {v : ℚ}
    (hv : jointValue q s.joint = .ok v) :
    segmentTransform q s = .ok (s.frame_to_tip.compose (s.joint.motion_at v)) := by
  simp [segmentTransform, hv, Except.map]

theorem contribution_eq_of_seg {q : Oracle} {e : ChainElement} {F : Isometry3d}
    (hF : segmentTransform q e.segment = .ok F) :
    contribution q e = .ok (if e.forward then F else F.inverse) := by
  simp [contribution, hF, Except.map]

theorem jointValue_ok_cases {q : Oracle} {j : Joint}
    (h : j.is_fixed = true ∨ ∃ v, q j.name = some v) :
    ∃ v, jointValue q j = .ok v := by
  rcases h with hf | ⟨v, hv⟩
  · exact ⟨0, by simp [jointValue, hf]⟩
  · cases hf : j.is_fixed with
    | false => exact ⟨v, by simp [jointValue, hf, hv]⟩
    | true => exact ⟨0, by simp [jointValue, hf]⟩

theorem contribution_isOk {q : Oracle} {e : ChainElement}
    (h : e.segment.joint.is_fixed = true ∨
      ∃ v, q e.segment.joint.name = some v) :
    ∃ c, contribution q e = .ok c := by
  obtain ⟨v, hv⟩ := jointValue_ok_cases h
  exact ⟨_, contribution_eq_of_seg (segmentTransform_ok_of_jointValue hv)⟩

theorem evalChainFrom_first_missing (q : Oracle) :
    ∀ (l1 : Chain) (acc : Isometry3d) (e : ChainElement) (l2 : Chain),
      (∀ e' ∈ l1, e'.segment.joint.is_fixed = true ∨
        ∃ v, q e'.segment.joint.name = some v) →
      e.segment.joint.is_fixed = false →
      q e.segment.joint.name = none →
      evalChainFrom q acc (l1 ++ e :: l2) =
        .error (.missingJointValue e.segment.joint.name) := by
  intro l1
  induction l1 with
  | nil =>
    intro acc e l2 _ hfix hnone
    simp [evalChainFrom, contribution, segmentTransform, jointValue, hfix,
      hnone, Except.map]
  | cons e' l1 ih =>
    intro acc e l2 h hfix hnone
    obtain ⟨c, hc⟩ := contribution_isOk (h e' (List.mem_cons_self e' l1))
    rw [List.cons_append]
    simp only [evalChainFrom, hc]
    exact ih _ e l2 (fun x hx => h x (List.mem_cons_of_mem _ hx)) hfix hnone

theorem getTransform_ok_iff (l : Chain) :
    (∃ T, getTransform l = .ok T) ↔
      ∀ e ∈ l, e.segment.joint.is_fixed = true := by
  have key : ∀ (l : Chain) (acc : Isometry3d),
      (∃ T, evalChainFrom emptyOracle acc l = .ok T) ↔
        ∀ e ∈ l, e.segment.joint.is_fixed = true := by
    intro l
    induction l with
    | nil => intro acc; simp [evalChainFrom]
    | cons e l ih =>
      intro acc
      cases hf : e.segment.joint.is_fixed with
      | true =>
        obtain ⟨c, hc⟩ := contribution_isOk (q := emptyOracle) (e := e) (Or.inl hf)
        simp only [evalChainFrom, hc]
        rw [ih]
        simp [hf]
      | false =>
        have hc : contribution emptyOracle e =
            .error (.missingJointValue e.segment.joint.name) := by
          simp [contribution, segmentTransform, jointValue, hf, emptyOracle,
            Except.map]
        simp only [evalChainFrom, hc]
        simp [hf]
  exact key l Isometry3d.identity

/-- C2: a chain element with a non-fixed joint whose value is missing makes
evaluation fail with `MissingJointValue` of that joint's name at the first
such element; the empty oracle succeeds exactly on all-fixed chains. -/
theorem evaluation_missing_joint_spec :
    (∀ (q : Oracle) (l1 : Chain) (e : ChainElement) (l2 : Chain),
      (∀ e' ∈ l1, e'.segment.joint.is_fixed = true ∨
        ∃ v, q e'.segment.joint.name = some v) →
      e.segment.joint.is_fixed = false →
      q e.segment.joint.name = none →
      evalChain (l1 ++ e :: l2) q =
        .error (.missingJointValue e.segment.joint.name))
    ∧ (∀ l : Chain, (∃ T, getTransform l = .ok T) ↔
        ∀ e ∈ l, e.segment.joint.is_fixed = true) :=
  ⟨fun q l1 e l2 h hfix hnone =>
    evalChainFrom_first_missing q l1 Isometry3d.identity e l2 h hfix hnone,
   getTransform_ok_iff⟩

theorem parallelLookup_some_iff :
    ∀ (names : List String) (values : List ℚ), names.length = values.length →
      ∀ (n : String) (v : ℚ),
        (parallelLookup names values n = some v ↔
          ∃ i : Nat, names[i]? = some n ∧
            (∀ j : Nat, j < i → names[j]? ≠ some n) ∧
            values[i]? = some v) := by
  intro names
  induction names with
  | nil =>
    intro values hlen n v
    have hv : values = [] := List.eq_nil_of_length_eq_zero hlen.symm
    subst hv
    simp [parallelLookup]
  | cons a ns ih =>
    intro values hlen n v
    cases values with
    | nil => simp at hlen
    | cons b vs =>
      have hlen' : ns.length = vs.length := by simpa using hlen
      by_cases ha : a = n
      · subst ha
        simp only [parallelLookup, if_pos rfl]
        constructor
        · intro h
          exact ⟨0, by simp, by intro j hj; omega, by simpa using h⟩
        · rintro ⟨i, hi, hprev, hv⟩
          cases i with
          | zero => simpa using hv
          | succ k =>
            exact absurd (by simp : (a :: ns)[0]? = some a)
              (hprev 0 (Nat.succ_pos k))
      · simp only [parallelLookup, if_neg ha]
        rw [ih vs hlen' n v]
        constructor
        · rintro ⟨k, hk, hprev, hv⟩
          refine ⟨k + 1, by simpa using hk, ?_, by simpa using hv⟩
          intro j hj
          cases j with
          | zero => simpa using ha
          | succ m => simpa using hprev m (by omega)
        · rintro ⟨i, hi, hprev, hv⟩
          cases i with
          | zero =>
            have hb : a = n := by simpa using hi
            exact absurd hb ha
          | succ k =>
            refine ⟨k, by simpa using hi, ?_, by simpa using hv⟩
            intro m hm
            simpa using hprev (m + 1) (by omega)

theorem parallelLookup_none_iff :
    ∀ (names : List String) (values : List ℚ), names.length = values.length →
      ∀ n : String, (parallelLookup names values n = none ↔ n ∉ names) := by
  intro names
  induction names with
  | nil =>
    intro values hlen n
    have hv : values = [] := List.eq_nil_of_length_eq_zero hlen.symm
    subst hv
    simp [parallelLookup]
  | cons a ns ih =>
    intro values hlen n
    cases values with
    | nil => simp at hlen
    | cons b vs =>
      have hlen' : ns.length = vs.length := by simpa using hlen
      by_cases ha : a = n
      · subst ha
        simp [parallelLookup]
      · simp only [parallelLookup, if_neg ha]
        rw [ih vs hlen' n]
        have ha' : ¬(n = a) := fun h => ha h.symm
        simp only [List.mem_cons]
        tauto

/-- C7: the parallel-sequences variant fails with `MalformedJointInput` when
the two sequences have different lengths; with equal lengths, the lookup
yields the value at the first index whose name matches, and `missing`
exactly when the name occurs nowhere. -/
theorem parallel_sequences_spec :
    (∀ (chain : Chain) (names : List String) (values : List ℚ),
      names.length ≠ values.length →
      getTransformVectors chain names values = .error .malformedJointInput)
    ∧ (∀ (names : List String) (values : List ℚ),
        names.length = values.length →
        ∀ (n : String) (v : ℚ),
          (parallelLookup names values n = some v ↔
            ∃ i : Nat, names[i]? = some n ∧
              (∀ j : Nat, j < i → names[j]? ≠ some n) ∧
              values[i]? = some v)
          ∧ (parallelLookup names values n = none ↔ n ∉ names)) := by
  constructor
  · intro chain names values hne
    simp [getTransformVectors, hne]
  · intro names values hlen n v
    exact ⟨parallelLookup_some_iff names values hlen n v,
      parallelLookup_none_iff names values hlen n⟩

theorem parallelLookup_map_eq_lookup :
    ∀ (ps : List (String × ℚ)) (n : String),
      parallelLookup (ps.map Prod.fst) (ps.map Prod.snd) n = ps.lookup n := by
  intro ps
  induction ps with
  | nil => intro n; rfl
  | cons p ps ih =>
    intro n
    obtain ⟨a, b⟩ := p
    by_cases h : a = n
    · subst h
      simp [parallelLookup, List.lookup]
    · have h' : (n == a) = false := by
        simp [Ne.symm h]
      simp [parallelLookup, List.lookup, h, h', ih]

/-- C8: for a chain with a non-fixed joint `j`, the mapping oracle built
from an association list and the parallel-sequences oracle built from its
two projections yield equal transforms for the same value of `j`. -/
theorem mapping_parallel_oracle_agree (chain : Chain) (ps : List (String × ℚ))
    (j : String) (qv : ℚ)
    (hj : ∃ e ∈ chain, e.segment.joint.name = j ∧
      e.segment.joint.is_fixed = false)
    (hq : ps.lookup j = some qv) :
    getTransformMap chain ps =
      getTransformVectors chain (ps.map Prod.fst) (ps.map Prod.snd) := by
  have hlen : (ps.map Prod.fst).length = (ps.map Prod.snd).length := by simp
  rw [getTransformVectors, if_pos hlen]
  unfold getTransformMap
  congr 1
  funext n
  rw [parallelLookup_map_eq_lookup]
  rfl

/-- C9: every `KdlTree::transform` overload is exactly
`getTransform(getChain(source, target), …)`, and consequently a failing
chain extraction preempts evaluation: its error is returned for every
oracle shape. -/
theorem transform_method_spec :
    (∀ (t : KdlTree) (source target : String),
      t.transform source target =
        (t.getChain source target).bind fun c => getTransform c)
    ∧ (∀ (t : KdlTree) (source target : String)
        (joints : List (String × ℚ)),
      t.transformMap source target joints =
        (t.getChain source target).bind fun c => getTransformMap c joints)
    ∧ (∀ (t : KdlTree) (source target : String)
        (names : List String) (values : List ℚ),
      t.transformVectors source target names values =
        (t.getChain source target).bind fun c =>
          getTransformVectors c names values)
    ∧ (∀ (t : KdlTree) (source target : String) (js : JointState),
      t.transformJointState source target js =
        (t.getChain source target).bind fun c =>
          getTransformVectors c js.name js.position)
    ∧ (∀ (t : KdlTree) (source target : String) (e : KdlError)
        (joints : List (String × ℚ)) (names : List String)
        (values : List ℚ) (js : JointState),
        t.getChain source target = .error e →
          t.transform source target = .error e ∧
          t.transformMap source target joints = .error e ∧
          t.transformVectors source target names values = .error e ∧
          t.transformJointState source target js = .error e) := by
  refine ⟨fun _ _ _ => rfl, fun _ _ _ _ => rfl, fun _ _ _ _ _ => rfl,
    fun _ _ _ _ => rfl, ?_⟩
  intro t source target e joints names values js h
  refine ⟨?_, ?_, ?_, ?_⟩ <;>
    simp [KdlTree.transform, KdlTree.transformMap, KdlTree.transformVectors,
      KdlTree.transformJointState, h, Except.bind]

/-- C10: the `JointState` overload returns exactly what the
parallel-sequences overload returns on the message's `name` and `position`
sequences. -/
theorem transformJointState_eq_vectors (t : KdlTree) (source target : String)
    (js : JointState) :
    t.transformJointState source target js =
      t.transformVectors source target js.name js.position := rfl

/-! Concrete witness data: a three-segment tree (`base` with children `A`
— fixed joint, unit translation — and `B` — revolute joint about `z`). -/

def wUnitZ : UnitAxis := ⟨![0, 0, 1], by simp [sqNorm]⟩

def wSegBase : Segment := ⟨"base", ⟨"joint_base", .fixed⟩, Isometry3d.identity⟩

def wSegA : Segment :=
  ⟨"A", ⟨"joint_A", .fixed⟩, Isometry3d.from_translation ![1, 0, 0] 1⟩

def wSegB : Segment := ⟨"B", ⟨"joint_B", .revolute wUnitZ⟩, Isometry3d.identity⟩

def wTree : KdlTree :=
  ⟨[⟨wSegBase, none⟩, ⟨wSegA, some 0⟩, ⟨wSegB, some 0⟩], by decide⟩

def wOracle : Oracle := fun n => if n = "joint_B" then some 1 else none

def wFA : Isometry3d := wSegA.frame_to_tip.compose (wSegA.joint.motion_at 0)

def wFB : Isometry3d := wSegB.frame_to_tip.compose (wSegB.joint.motion_at 1)

def wX3 : Isometry3d := (Isometry3d.identity.compose wFA.inverse).compose wFB

def wY3 : Isometry3d := (Isometry3d.identity.compose wFB.inverse).compose wFA

def wXab : Isometry3d := Isometry3d.identity.compose wFA.inverse

def wYbc : Isometry3d := Isometry3d.identity.compose wFB

theorem evalChain_eq_composition_witness :
    evalChain [⟨wSegA, true⟩, ⟨wSegA, false⟩] emptyOracle =
      .ok (listCompose [wFA, wFA.inverse]) :=
  evalChain_eq_composition [⟨wSegA, true⟩, ⟨wSegA, false⟩] emptyOracle
    [wFA, wFA.inverse]
    (List.Forall₂.cons ⟨0, rfl, rfl⟩
      (List.Forall₂.cons ⟨0, rfl, rfl⟩ List.Forall₂.nil))

theorem evaluation_missing_joint_spec_witness :
    evalChain ([⟨wSegA, true⟩] ++ ⟨wSegB, true⟩ :: []) emptyOracle =
      .error (.missingJointValue "joint_B")
    ∧ (∃ T, getTransform [⟨wSegA, true⟩] = .ok T) :=
  ⟨evaluation_missing_joint_spec.1 emptyOracle [⟨wSegA, true⟩] ⟨wSegB, true⟩ []
      (by
        intro e' he'
        rw [List.mem_singleton] at he'
        subst he'
        left
        rfl)
      rfl rfl,
    (evaluation_missing_joint_spec.2 [⟨wSegA, true⟩]).mpr
      (by
        intro e he
        rw [List.mem_singleton] at he
        subst he
        rfl)⟩

theorem transform_inverse_symm_witness : wX3 = wY3.inverse :=
  transform_inverse_symm wTree "A" "B" wOracle wX3 wY3 rfl rfl

theorem transform_composition_law_witness : wX3 = wXab.compose wYbc :=
  transform_composition_law wTree "A" "base" "B" wOracle wXab wYbc wX3
    rfl rfl rfl

theorem transform_self_identity_witness :
    wTree.getChain "A" "A" = .ok ([] : Chain) ∧
      wTree.transformOracle "A" "A" emptyOracle = .ok Isometry3d.identity :=
  transform_self_identity wTree "A" emptyOracle rfl

theorem getChain_unknownSegment_iff_witness :
    (∃ n, wTree.getChain "A" "ghost" = .error (.unknownSegment n)) ∧
      (∃ ch, wTree.getChain "A" "B" = .ok ch) :=
  ⟨(getChain_unknownSegment_iff wTree "A" "ghost").1.mpr (Or.inr rfl),
    (getChain_unknownSegment_iff wTree "A" "B").2 rfl rfl⟩

theorem parallel_sequences_spec_witness :
    getTransformVectors [] ["a"] [] = .error .malformedJointInput ∧
      ((parallelLookup ["a"] [2] "a" = some 2 ↔
        ∃ i : Nat, (["a"] : List String)[i]? = some "a" ∧
          (∀ j : Nat, j < i → (["a"] : List String)[j]? ≠ some "a") ∧
          ([2] : List ℚ)[i]? = some 2)
      ∧ (parallelLookup ["a"] [2] "a" = none ↔
          "a" ∉ (["a"] : List String))) :=
  ⟨parallel_sequences_spec.1 [] ["a"] [] (by decide),
    parallel_sequences_spec.2 ["a"] [2] rfl "a" 2⟩

theorem mapping_parallel_oracle_agree_witness :
    getTransformMap [⟨wSegB, true⟩] [("joint_B", 1)] =
      getTransformVectors [⟨wSegB, true⟩] ["joint_B"] [1] :=
  mapping_parallel_oracle_agree [⟨wSegB, true⟩] [("joint_B", 1)] "joint_B" 1
    ⟨⟨wSegB, true⟩, List.mem_singleton.mpr rfl, rfl, rfl⟩ rfl

theorem transform_method_spec_witness :
    wTree.transform "ghost" "A" = .error (.unknownSegment "ghost") ∧
      wTree.transformMap "ghost" "A" [] = .error (.unknownSegment "ghost") ∧
      wTree.transformVectors "ghost" "A" [] [] =
        .error (.unknownSegment "ghost") ∧
      wTree.transformJointState "ghost" "A" ⟨[], []⟩ =
        .error (.unknownSegment "ghost") :=
  transform_method_spec.2.2.2.2 wTree "ghost" "A" (.unknownSegment "ghost")
    [] [] [] ⟨[], []⟩ rfl
